import Mathlib

/-!
Verification development for the Obsidian heading-property script
(`add_headings.py`).  The script is shallowly embedded below: Python strings
are modelled as `List Char` (`Str`), restricted to ASCII text whose only line
terminators are LF and CRLF; the PyYAML calls `yaml.safe_load` / `yaml.dump`
are modelled on the flat subset of YAML the frontmatter round trip of the script
exercises (top-level mappings from plain-word keys to plain scalar values,
plus plain-scalar documents); file-system reads and writes are modelled by
explicit fields on the vault-file record.  Every other definition is a direct
translation of the corresponding Python function, keeping its name.
-/

namespace AddHeadings

/-- Python `str` restricted to a list of characters. -/
abbrev Str := List Char

/-- Characters the Python `str.strip()` / `\s` class removes (ASCII part of
the whitespace set of Python). -/
def pyIsSpace (c : Char) : Bool :=
  decide (c = ' ' ∨ c = '\t' ∨ c = '\n' ∨ c = '\r' ∨ c = '\x0b' ∨ c = '\x0c')

/-- ASCII letter test (`[A-Za-z]`). -/
def asciiLetter (c : Char) : Bool :=
  decide (('A' ≤ c ∧ c ≤ 'Z') ∨ ('a' ≤ c ∧ c ≤ 'z'))

/-- ASCII digit test (`[0-9]`, the `\d` class of the regexes in the script). -/
def asciiDigit (c : Char) : Bool :=
  decide ('0' ≤ c ∧ c ≤ '9')

/-- Drop trailing whitespace, second half of Python `str.strip()`. -/
def dropTrail (s : Str) : Str :=
  (s.reverse.dropWhile pyIsSpace).reverse

/-- Python `str.strip()`. -/
def pyStrip (s : Str) : Str :=
  dropTrail (s.dropWhile pyIsSpace)

/-- Python `str.lower()` (ASCII model). -/
def toLowerS (s : Str) : Str := s.map Char.toLower

/-- Python `str.upper()` (ASCII model). -/
def toUpperS (s : Str) : Str := s.map Char.toUpper

/-- Python `str.capitalize()`: first character upper-cased, rest lower-cased. -/
def pyCapitalizeS : Str → Str
  | [] => []
  | c :: r => Char.toUpper c :: toLowerS r

/-- Python `str.startswith`. -/
def startsWithS : Str → Str → Bool
  | _, [] => true
  | [], _ :: _ => false
  | c :: s, d :: p => if c = d then startsWithS s p else false

/-- Python `str.endswith`. -/
def endsWithS (s p : Str) : Bool :=
  startsWithS s.reverse p.reverse

/-- Python substring containment (`sub in s`). -/
def containsSub : Str → Str → Bool
  | [], sub => sub.isEmpty
  | c :: rest, sub => startsWithS (c :: rest) sub || containsSub rest sub

/-- Concatenation of a list of strings (used for the Python empty-separator join of lines). -/
def listJoin : List Str → Str
  | [] => []
  | l :: ls => l ++ listJoin ls

/-- Prepend a character to the first string of a list (helper for the
line splitter). -/
def consFirst (c : Char) : List Str → List Str
  | [] => [[c]]
  | l :: ls => (c :: l) :: ls

/-- Python `str.splitlines(keepends=True)` for texts whose line terminators
are `\n`, `\r\n` or a lone `\r` (the further terminators Python also splits
on — `\v`, `\f`, `\x1c`-`\x1e`, `\x85`, `\u2028`, `\u2029` — are outside the
modelled text subset). -/
def splitLinesKeep : Str → List Str
  | [] => []
  | '\n' :: cs => ['\n'] :: splitLinesKeep cs
  | '\r' :: '\n' :: ds => ['\r', '\n'] :: splitLinesKeep ds
  | '\r' :: ds => ['\r'] :: splitLinesKeep ds
  | c :: cs => consFirst c (splitLinesKeep cs)

/-- First-occurrence membership test on strings (Python `in` for a list of
strings and `dict` key lookup). -/
def memStr : List Str → Str → Bool
  | [], _ => false
  | a :: r, k => if a = k then true else memStr r k

/-- Reserved YAML plain-scalar words (booleans and nulls); values and keys of
the modelled flat-mapping subset must avoid them so `yaml.safe_load` returns
them as strings. -/
def reservedWord (w : Str) : Bool :=
  memStr (["true", "false", "yes", "no", "on", "off", "null",
           "none"].map String.data) (toLowerS w)

/-- Characters allowed in a modelled mapping key. -/
def keyChar (c : Char) : Bool :=
  asciiLetter c || asciiDigit c || decide (c = '_') || decide (c = '-')

/-- Characters allowed in a modelled plain scalar value. -/
def plainChar (c : Char) : Bool :=
  asciiLetter c || asciiDigit c || decide (c = ' ')

/-- Keys of the modelled flat-mapping subset: a nonempty word over
letters/digits/`_`/`-` starting with a letter and not a reserved word.  On
such keys PyYAML emits `key: value` and reparses the key verbatim. -/
def plainKey (k : Str) : Bool :=
  match k with
  | [] => false
  | c :: _ => asciiLetter c && k.all keyChar && !reservedWord k

/-- Values of the modelled plain-scalar subset: nonempty, letters/digits and
inner spaces only, first character a letter, last character not a space, and
not a reserved word.  PyYAML dumps such strings unquoted and `safe_load`
returns them verbatim. -/
def plainScalar (v : Str) : Bool :=
  match v with
  | [] => false
  | c :: _ =>
    asciiLetter c && v.all plainChar && !(v.getLast? = some ' ') &&
      !reservedWord v

/-- Split a line at its first `:` (helper of the flat mapping parser). -/
def splitColon : Str → Option (Str × Str)
  | [] => none
  | c :: cs =>
    if c = ':' then some ([], cs)
    else (splitColon cs).map (fun p => (c :: p.1, p.2))

/-- Parse one stripped line of the modelled flat-mapping subset as
`key: value`. -/
def parseKVLine (l : Str) : Option (Str × Str) :=
  match splitColon l with
  | none => none
  | some (k, rest) =>
    match rest with
    | ' ' :: v => if plainKey k && plainScalar v then some (k, v) else none
    | _ => none

/-- Parse every stripped nonblank line as `key: value`. -/
def parseKVLines : List Str → Option (List (Str × Str))
  | [] => some []
  | l :: ls =>
    match parseKVLine l, parseKVLines ls with
    | some kv, some m => some (kv :: m)
    | _, _ => none

/-- Pairwise-distinct strings (duplicate mapping keys are outside the
modelled subset; PyYAML silently keeps the last duplicate, which the flat
model cannot represent as an ordered association list). -/
def nodupBy : List Str → Bool
  | [] => true
  | k :: ks => !memStr ks k && nodupBy ks

/-- Result of `yaml.safe_load` on the modelled subset: a flat mapping in
document order, or a plain-scalar document. -/
inductive YDoc where
  | ymap (entries : List (Str × Str))
  | yscalar (s : Str)
deriving DecidableEq

/-- The stripped nonblank lines of a block (the line view `yaml.safe_load`
is modelled on). -/
def stripLines (s : Str) : List Str :=
  ((splitLinesKeep s).map pyStrip).filter (fun l => !l.isEmpty)

/-- Model of `yaml.safe_load` on the subset exercised by the round trip in
the script.  `none` is a `yaml.YAMLError`; `some none` is a `None` document
(empty or whitespace-only block); otherwise the block is a flat mapping with
distinct plain keys and plain scalar values, or a single plain-scalar line.
Inputs outside this subset are mapped to `none`. -/
def yamlSafeLoad (s : Str) : Option (Option YDoc) :=
  match stripLines s with
  | [] => some none
  | l :: ls =>
    match parseKVLines (l :: ls) with
    | some m => if nodupBy (m.map Prod.fst) then some (some (YDoc.ymap m)) else none
    | none =>
      match ls with
      | [] => if plainScalar l then some (some (YDoc.yscalar l)) else none
      | _ => none

/-- One dumped mapping line, `key: value` plus newline, as emitted by
`yaml.dump(..., default_flow_style=False, sort_keys=False)` on the modelled
subset. -/
def dumpLine (e : Str × Str) : Str :=
  e.1 ++ (':' :: ' ' :: (e.2 ++ ['\n']))

/-- Model of `yaml.dump` on the modelled flat-mapping subset (an empty
mapping dumps as `{}` plus newline, never reached by the script because the
`heading` key has just been inserted). -/
def yamlDump (m : List (Str × Str)) : Str :=
  match m with
  | [] => ['\x7b', '\x7d', '\n']
  | _ => listJoin (m.map dumpLine)

/-- Scan `lines[1:]` for the first line whose strip equals `---`; returns the
frontmatter lines before it and the body lines after it
(`HeadingProcessor._parse_frontmatter`, the `for i, line in enumerate` loop). -/
def scanClose : List Str → Option (List Str × List Str)
  | [] => none
  | l :: ls =>
    if pyStrip l = ['-', '-', '-'] then some ([], ls)
    else
      match scanClose ls with
      | some p => some (l :: p.1, p.2)
      | none => none

/-- Python dict insertion-order membership of a key. -/
def hasKey (m : List (Str × Str)) (k : Str) : Bool :=
  memStr (m.map Prod.fst) k

/-- Python `d[k] = v` on an insertion-ordered dict: update in place when the
key exists, append otherwise. -/
def dictSet (m : List (Str × Str)) (k v : Str) : List (Str × Str) :=
  if hasKey m k then m.map (fun e => if e.1 = k then (k, v) else e)
  else m ++ [(k, v)]

/-- The `heading` key the script inserts. -/
def headingKey : Str := "heading".data

/-- `HeadingProcessor._parse_frontmatter`: returns `(frontmatter, body)`;
`none` frontmatter models Python `None`.  A falsy `safe_load` result is
replaced by an empty mapping (`yaml.safe_load(fm_text) or {}`); in the
modelled subset the only falsy document is the empty mapping itself, so the
`some (some d)` branch returns `d` unchanged. -/
def parse_frontmatter (content : Str) : Option YDoc × Str :=
  if pyStrip content = [] then (none, content)
  else if startsWithS content ("---\n".data) || startsWithS content ("---\r\n".data) then
    match splitLinesKeep content with
    | [] => (none, content)
    | _ :: rest =>
      match scanClose rest with
      | none => (none, content)
      | some (fmLines, bodyLines) =>
        match yamlSafeLoad (listJoin fmLines) with
        | none => (none, content)
        | some none => (some (YDoc.ymap []), listJoin bodyLines)
        | some (some d) => (some d, listJoin bodyLines)
  else (none, content)

/-- `HeadingProcessor._reconstruct_content`: dump the frontmatter, guarantee
a trailing newline, and wrap it in `---` delimiters ahead of the body. -/
def reconstruct_content (m : List (Str × Str)) (body : Str) : Str :=
  let fmY := yamlDump m
  let fmY2 := if fmY.getLast? = some '\n' then fmY else fmY ++ ['\n']
  ("---\n".data) ++ fmY2 ++ ("---\n".data) ++ body

/-- Per-run configuration (`Config` dataclass).  `vault_name` is the name of
the vault root directory, used when a file at the vault root asks for its
name of its parent directory. -/
structure Config where
  vault_name : Str
  dry_run : Bool
  backup : Bool
  verbose : Bool
  skip_existing : Bool
  title_case : Bool
  preserve_case : Bool
  exclude_dirs : List Str
  include_patterns : List Str
deriving DecidableEq

/-- `HeadingProcessor.PRESERVE_TERMS` (default set, in source order). -/
def PRESERVE_TERMS : List Str :=
  ["API", "APIs", "UI", "UX", "CSS", "HTML", "JS", "JSON", "YAML",
   "XML", "SQL", "HTTP", "HTTPS", "URL", "URI", "ID", "iOS", "macOS",
   "IDE", "CLI", "GUI", "REST", "GraphQL", "OAuth", "JWT", "PDF",
   "PNG", "JPG", "GIF", "SVG", "MP3", "MP4", "ZIP", "README"].map String.data

/-- Strip the organizational numeral, the `re.sub` of pattern `^\d{2}-\s*`:
exactly two digits and a hyphen at the very start, plus following
whitespace. -/
def stripOrgNum (s : Str) : Str :=
  match s with
  | x :: y :: z :: r =>
    if asciiDigit x && asciiDigit y && decide (z = '-') then r.dropWhile pyIsSpace
    else s
  | _ => s

/-- Python `str.split()` with no arguments: split on whitespace runs,
dropping empty pieces. -/
def pySplitWS : Str → List Str
  | [] => []
  | c :: cs =>
    if pyIsSpace c then pySplitWS cs
    else
      match cs with
      | [] => [[c]]
      | d :: _ =>
        if pyIsSpace d then [c] :: pySplitWS cs
        else consFirst c (pySplitWS cs)

/-- Python `' '.join(words)`. -/
def joinSpace : List Str → Str
  | [] => []
  | [w] => w
  | w :: ws => w ++ (' ' :: joinSpace ws)

/-- `HeadingProcessor._to_title_case`: replace hyphens and underscores with
spaces, apply the organizational-prefix regex, split on whitespace, then map
each word through the preserve-set checks (`word.upper()` first, exact match
second) or `str.capitalize()`. -/
def to_title_case (text : Str) : Str :=
  let t1 := text.map (fun c => if c = '-' then ' ' else c)
  let t2 := t1.map (fun c => if c = '_' then ' ' else c)
  let t3 := stripOrgNum t2
  let ws := pySplitWS t3
  joinSpace (ws.map (fun w =>
    if memStr PRESERVE_TERMS (toUpperS w) then toUpperS w
    else if memStr PRESERVE_TERMS w then w
    else pyCapitalizeS w))

/-- Drop a literal from the front of a string, if present (regex literal
matching after lower-casing). -/
def dropLit : Str → Str → Option Str
  | s, [] => some s
  | [], _ :: _ => none
  | c :: s, d :: p => if c = d then dropLit s p else none

/-- Match the character class `[/\\]` and drop it. -/
def dropSep : Str → Option Str
  | [] => none
  | c :: r => if c = '/' ∨ c = '\\' then some r else none

/-- Does `p` match at some position of `s`?  Model of `re.search`. -/
def searchAny (p : Str → Bool) : Str → Bool
  | [] => p []
  | c :: rest => p (c :: rest) || searchAny p rest

/-- Regex word character `\w` (ASCII model). -/
def wordChar (c : Char) : Bool :=
  asciiLetter c || asciiDigit c || decide (c = '_')

/-- After one word character: keep consuming word characters until the first
non-word character, which must be `[/\\]` (`\w+[/\\]` with backtracking). -/
def afterWords : Str → Bool
  | [] => false
  | c :: r => if wordChar c then afterWords r else decide (c = '/' ∨ c = '\\')

/-- Match `\w+[/\\]` at the start of a string. -/
def wordsThenSep : Str → Bool
  | [] => false
  | c :: r => wordChar c && afterWords r

/-- Daily-note pattern `00-INBOX[/\\]daily-notes[/\\]` at one position
(literals already lower-cased for the `re.IGNORECASE` search). -/
def pat1At (s : Str) : Bool :=
  match dropLit s ("00-inbox".data) with
  | none => false
  | some r1 =>
    match dropSep r1 with
    | none => false
    | some r2 =>
      match dropLit r2 ("daily-notes".data) with
      | none => false
      | some r3 => (dropSep r3).isSome

/-- Daily-note pattern `99-ARCHIVE[/\\]\d{4}[/\\]\d{2}-\w+[/\\]` at one
position. -/
def archiveAt (s : Str) : Bool :=
  match dropLit s ("99-archive".data) with
  | none => false
  | some r1 =>
    match dropSep r1 with
    | none => false
    | some r2 =>
      match r2 with
      | d1 :: d2 :: d3 :: d4 :: r3 =>
        asciiDigit d1 && asciiDigit d2 && asciiDigit d3 && asciiDigit d4 &&
          (match dropSep r3 with
           | none => false
           | some r4 =>
             match r4 with
             | e1 :: e2 :: r5 =>
               asciiDigit e1 && asciiDigit e2 &&
                 (match r5 with
                  | '-' :: r6 => wordsThenSep r6
                  | _ => false)
             | _ => false)
      | _ => false

/-- Daily-note pattern `daily-notes[/\\]` at one position. -/
def pat3At (s : Str) : Bool :=
  ((dropLit s ("daily-notes".data)).bind dropSep).isSome

/-- Daily-note pattern `journal[/\\]` at one position. -/
def pat4At (s : Str) : Bool :=
  ((dropLit s ("journal".data)).bind dropSep).isSome

/-- Template pattern `04-TEMPLATES[/\\]` at one position. -/
def tpl1At (s : Str) : Bool :=
  ((dropLit s ("04-templates".data)).bind dropSep).isSome

/-- Template pattern `templates[/\\]` at one position. -/
def tpl2At (s : Str) : Bool :=
  ((dropLit s ("templates".data)).bind dropSep).isSome

/-- Template pattern `template[/\\]` at one position. -/
def tpl3At (s : Str) : Bool :=
  ((dropLit s ("template".data)).bind dropSep).isSome

/-- `fnmatch.fnmatch` glob matching for the `*` and `?` metacharacters
(bracket classes are outside the modelled subset); fuelled so the definition
is structural, with fuel large enough for full backtracking. -/
def globMatchF : Nat → Str → Str → Bool
  | 0, _, _ => false
  | _ + 1, [], s => s.isEmpty
  | fuel + 1, c :: p, s =>
    if c = '*' then
      globMatchF fuel p s ||
        (match s with
         | [] => false
         | _ :: s2 => globMatchF fuel (c :: p) s2)
    else
      match s with
      | [] => false
      | a :: s2 => (decide (c = '?') || decide (a = c)) && globMatchF fuel p s2

/-- `HeadingProcessor._match_glob_pattern`. -/
def globMatch (p s : Str) : Bool :=
  globMatchF (p.length + s.length + 1) p s

/-- `HeadingProcessor._is_daily_note`: the built-in patterns searched
case-insensitively, then the configured include globs. -/
def is_daily_note (cfg : Config) (rel : Str) : Bool :=
  let low := toLowerS rel
  searchAny pat1At low || searchAny archiveAt low || searchAny pat3At low ||
    searchAny pat4At low ||
    cfg.include_patterns.any (fun p => globMatch p rel)

/-- `HeadingProcessor._is_template_file`. -/
def is_template_file (rel fname : Str) : Bool :=
  let low := toLowerS rel
  searchAny tpl1At low || searchAny tpl2At low || searchAny tpl3At low ||
    containsSub (toLowerS fname) ("template".data)

/-- `pathlib.PurePath.stem`: drop the final suffix when the last dot sits
strictly inside the name. -/
def stemOf (nameArg : Str) : Str :=
  match nameArg.reverse.findIdx? (fun c => decide (c = '.')) with
  | none => nameArg
  | some j =>
    let i := nameArg.length - 1 - j
    if 0 < i ∧ i < nameArg.length - 1 then nameArg.take i else nameArg

/-- `file_path.parent.name` for a file at `dirs` under the vault root. -/
def parentName (cfg : Config) (dirs : List Str) : Str :=
  match dirs.getLast? with
  | some d => d
  | none => cfg.vault_name

/-- Join path segments with `/`. -/
def joinSlash : List Str → Str
  | [] => []
  | [x] => x
  | x :: xs => x ++ ('/' :: joinSlash xs)

/-- `str(file_path.relative_to(vault)).replace('\\', '/')`. -/
def relStrOf (dirs : List Str) (fname : Str) : Str :=
  (joinSlash (dirs ++ [fname])).map (fun c => if c = '\\' then '/' else c)

/-- `HeadingProcessor._generate_heading_value`: the ordered rule list. -/
def generate_heading_value (cfg : Config) (dirs : List Str) (fname : Str) : Str :=
  let filename := stemOf fname
  let rel := relStrOf dirs fname
  if is_daily_note cfg rel then "Daily Note ".data ++ filename
  else if endsWithS filename ("-summary".data) then
    let pn := filename.take (filename.length - 8)
    let pn2 := if cfg.title_case then to_title_case pn else pn
    pn2 ++ (" - Summary".data)
  else if is_template_file rel filename then "Template: ".data ++ filename
  else if toLowerS filename = "index".data then
    let p := parentName cfg dirs
    let p2 := if cfg.title_case then to_title_case p else p
    p2 ++ (" - Index".data)
  else if toUpperS filename = "README".data then
    let p := parentName cfg dirs
    let p2 := if cfg.title_case then to_title_case p else p
    p2 ++ (" - README".data)
  else if cfg.title_case && !cfg.preserve_case then to_title_case filename
  else filename

/-- How the walker treats one directory entry (`_find_markdown_files` inner
loop): non-markdown names are ignored, `.excalidraw.md` (and, per the code,
`.canvas`) names are counted `skipped_special`, the rest are candidates. -/
inductive WalkClass where
  | candidate
  | special
  | ignored
deriving DecidableEq

/-- The per-file decision of `HeadingProcessor._find_markdown_files`. -/
def classify_file (fname : Str) : WalkClass :=
  if endsWithS (toLowerS fname) (".md".data) then
    if endsWithS fname (".canvas".data) || endsWithS fname (".excalidraw.md".data) then
      WalkClass.special
    else WalkClass.candidate
  else WalkClass.ignored

/-- Terminal outcome of `_process_file` for one file (the statistics keys
`processed`, `skipped_existing`, `errors`). -/
inductive FileOutcome where
  | processed
  | skipped_existing
  | errored
deriving DecidableEq

/-- A file of the vault: its directory segments relative to the vault root,
its name, the result of reading it (`none` models a read that raises), and
whether writing it would raise. -/
structure VFile where
  dirs : List Str
  fname : Str
  readRes : Option Str
  writeFails : Bool
deriving DecidableEq

/-- Result of processing one file: its outcome, the file afterwards (disk
content updated only by a successful write), and which writes were
issued. -/
structure FileResult where
  outcome : FileOutcome
  fileAfter : VFile
  madeBackup : Bool
  wroteFile : Bool
deriving DecidableEq

/-- Python truthiness of the parsed frontmatter (`if frontmatter and ...`);
scalars of the modelled subset are nonempty non-reserved words, hence
truthy. -/
def ydocTruthy : Option YDoc → Bool
  | none => false
  | some (YDoc.ymap m) => !m.isEmpty
  | some (YDoc.yscalar _) => true

/-- Python containment of `heading` in the frontmatter: key lookup on a mapping, substring
test on a scalar. -/
def ydocHasHeading : Option YDoc → Bool
  | none => false
  | some (YDoc.ymap m) => hasKey m headingKey
  | some (YDoc.yscalar s) => containsSub s headingKey

/-- `HeadingProcessor._process_file`.  A failed read raises before anything
else; a scalar frontmatter makes the heading item assignment raise
`TypeError`; both are caught by the surrounding `except` and counted as
errors.  In dry-run mode no backup and no write happen; otherwise the backup
copy precedes the write and a raising write is caught after the backup was
made. -/
def process_file (cfg : Config) (f : VFile) : FileResult :=
  match f.readRes with
  | none => ⟨FileOutcome.errored, f, false, false⟩
  | some content =>
    let pr := parse_frontmatter content
    let fm := pr.1
    let body := pr.2
    if ydocTruthy fm && ydocHasHeading fm && cfg.skip_existing then
      ⟨FileOutcome.skipped_existing, f, false, false⟩
    else
      let v := generate_heading_value cfg f.dirs f.fname
      match fm with
      | some (YDoc.yscalar _) => ⟨FileOutcome.errored, f, false, false⟩
      | _ =>
        let m := match fm with | some (YDoc.ymap m0) => m0 | _ => []
        let nc := reconstruct_content (dictSet m headingKey v) body
        if cfg.dry_run then ⟨FileOutcome.processed, f, false, false⟩
        else if f.writeFails then ⟨FileOutcome.errored, f, cfg.backup, false⟩
        else ⟨FileOutcome.processed, { f with readRes := some nc }, cfg.backup, true⟩

/-- The per-file loop of `process_vault` over an already-enumerated file
list. -/
def run_results (cfg : Config) (files : List VFile) : List FileResult :=
  files.map (process_file cfg)

/-- Vault contents after a run. -/
def files_after (cfg : Config) (files : List VFile) : List VFile :=
  (run_results cfg files).map FileResult.fileAfter

/-- The statistics counter for one outcome kind after a run. -/
def stat_count (cfg : Config) (files : List VFile) (o : FileOutcome) : Nat :=
  ((run_results cfg files).filter (fun r => r.outcome = o)).length

/-- A file reaches the `processed` outcome (rather than being skipped or
raising) exactly when this predicate holds of its pre-run state; in dry-run
mode such files are the would-be-processed ones. -/
def eligible (cfg : Config) (f : VFile) : Bool :=
  match f.readRes with
  | none => false
  | some c =>
    let fm := (parse_frontmatter c).1
    if ydocTruthy fm && ydocHasHeading fm && cfg.skip_existing then false
    else
      match fm with
      | some (YDoc.yscalar _) => false
      | _ => cfg.dry_run || !f.writeFails

/-- All entries of a flat mapping lie in the modelled plain subset. -/
def entriesPlainB : List (Str × Str) → Bool
  | [] => true
  | e :: es => plainKey e.1 && plainScalar e.2 && entriesPlainB es

/-- Precondition under which processing one file cannot raise and its
rewritten content reparses: the file is readable and writable, and its
frontmatter is absent, a flat mapping, or a scalar already containing the
substring `heading`; when a heading will be inserted, the generated value
lies in the modelled plain-scalar subset. -/
def filePre (cfg : Config) (f : VFile) : Bool :=
  !f.writeFails &&
    (match f.readRes with
     | none => false
     | some c =>
       match (parse_frontmatter c).1 with
       | none => plainScalar (generate_heading_value cfg f.dirs f.fname)
       | some (YDoc.ymap m) =>
         hasKey m headingKey || plainScalar (generate_heading_value cfg f.dirs f.fname)
       | some (YDoc.yscalar s) => containsSub s headingKey)

/-- Baseline configuration used by the concrete instances below: default
flags of the CLI (`skip_existing` on, everything else off). -/
def cfgBase : Config :=
  ⟨"vault".data, false, false, false, true, false, false, [], []⟩

end AddHeadings


namespace AddHeadings

lemma pyIsSpace_iff {c : Char} :
    pyIsSpace c = true ↔
      (c = ' ' ∨ c = '\t' ∨ c = '\n' ∨ c = '\r' ∨ c = '\x0b' ∨ c = '\x0c') := by
  simp [pyIsSpace]

lemma asciiLetter_not_space {c : Char} (h : asciiLetter c = true) :
    pyIsSpace c = false := by
  cases hs : pyIsSpace c
  · rfl
  · exfalso
    rcases pyIsSpace_iff.mp hs with h1 | h1 | h1 | h1 | h1 | h1 <;>
      (subst h1; revert h; decide)

lemma keyChar_facts {c : Char} (h : keyChar c = true) :
    c ≠ '\n' ∧ c ≠ '\r' ∧ c ≠ ':' := by
  refine ⟨?_, ?_, ?_⟩ <;> (intro he; subst he; revert h; decide)

lemma plainChar_facts {c : Char} (h : plainChar c = true) :
    c ≠ '\n' ∧ c ≠ '\r' ∧ c ≠ ':' := by
  refine ⟨?_, ?_, ?_⟩ <;> (intro he; subst he; revert h; decide)

lemma plainChar_not_space {c : Char} (h : plainChar c = true) (hne : c ≠ ' ') :
    pyIsSpace c = false := by
  cases hs : pyIsSpace c
  · rfl
  · exfalso
    rcases pyIsSpace_iff.mp hs with h1 | h1 | h1 | h1 | h1 | h1 <;>
      (subst h1; revert h hne; decide)

lemma asciiLetter_ne_dash {c : Char} (h : asciiLetter c = true) : c ≠ '-' := by
  intro he; subst he; revert h; decide

lemma listJoin_consFirst (c : Char) (ls : List Str) :
    listJoin (consFirst c ls) = c :: listJoin ls := by
  cases ls <;> simp [consFirst, listJoin]

lemma join_split (s : Str) : listJoin (splitLinesKeep s) = s := by
  induction s using splitLinesKeep.induct with
  | case1 => simp [splitLinesKeep, listJoin]
  | case2 cs ih => simp [splitLinesKeep, listJoin, ih]
  | case3 ds ih => simp [splitLinesKeep, listJoin, ih]
  | case4 ds h ih => simp [splitLinesKeep, listJoin, ih]
  | case5 c cs h1 h2 h3 ih => simp [splitLinesKeep, listJoin_consFirst, ih]

lemma splitLinesKeep_cons {c : Char} {cs : Str} (h1 : c ≠ '\n') (h2 : c ≠ '\r') :
    splitLinesKeep (c :: cs) = consFirst c (splitLinesKeep cs) := by
  rw [splitLinesKeep.eq_def]
  split
  · simp_all
  · simp_all
  · simp_all
  · rename_i heq; simp_all
  · rename_i heq
    injection heq with e1 e2
    subst e1; subst e2; rfl

lemma splitLinesKeep_line {l : Str} (rest : Str)
    (h : ∀ c ∈ l, c ≠ '\n' ∧ c ≠ '\r') :
    splitLinesKeep (l ++ '\n' :: rest) = (l ++ ['\n']) :: splitLinesKeep rest := by
  induction l with
  | nil => simp [splitLinesKeep]
  | cons c t ih =>
    have hc := h c (by simp)
    have ht : ∀ x ∈ t, x ≠ '\n' ∧ x ≠ '\r' := fun x hx => h x (by simp [hx])
    simp only [List.cons_append]
    rw [splitLinesKeep_cons hc.1 hc.2, ih ht, consFirst]

lemma dropTrail_eq_nil_iff {s : Str} :
    dropTrail s = [] ↔ ∀ c ∈ s, pyIsSpace c = true := by
  constructor
  · intro h c hc
    have : s.reverse.dropWhile pyIsSpace = [] := by
      have := congrArg List.reverse h
      simpa [dropTrail] using this
    rw [List.dropWhile_eq_nil_iff] at this
    exact this c (by simpa using hc)
  · intro h
    have : s.reverse.dropWhile pyIsSpace = [] := by
      rw [List.dropWhile_eq_nil_iff]
      intro c hc
      exact h c (by simpa using hc)
    simp [dropTrail, this]

lemma pyStrip_cons_ne_nil {c : Char} {t : Str} (h : pyIsSpace c = false) :
    pyStrip (c :: t) ≠ [] := by
  intro hcon
  rw [pyStrip, List.dropWhile_cons, h] at hcon
  simp only [Bool.false_eq_true, if_false] at hcon
  rw [dropTrail_eq_nil_iff] at hcon
  have := hcon c (by simp)
  rw [h] at this
  exact Bool.false_ne_true this

lemma dropTrail_append_nl (x : Str) : dropTrail (x ++ ['\n']) = dropTrail x := by
  have : pyIsSpace '\n' = true := by decide
  simp [dropTrail, List.reverse_append, List.dropWhile_cons, this]

lemma dropTrail_last_not_space {s : Str} {a : Char}
    (hlast : s.getLast? = some a) (ha : pyIsSpace a = false) :
    dropTrail s = s := by
  have hrev : s.reverse.head? = some a := by
    rw [List.head?_reverse]; exact hlast
  match hs : s.reverse with
  | [] => rw [hs] at hrev; simp at hrev
  | b :: t =>
    rw [hs] at hrev
    simp only [List.head?_cons, Option.some.injEq] at hrev
    subst hrev
    have : s.reverse.dropWhile pyIsSpace = s.reverse := by
      rw [hs, List.dropWhile_cons, ha]
      simp
    rw [dropTrail, this, List.reverse_reverse]

lemma pyStrip_of_ends {c : Char} {t : Str} {a : Char} (hc : pyIsSpace c = false)
    (hlast : (c :: t).getLast? = some a) (ha : pyIsSpace a = false) :
    pyStrip ((c :: t) ++ ['\n']) = c :: t := by
  rw [pyStrip, List.cons_append, List.dropWhile_cons, hc]
  simp only [Bool.false_eq_true, if_false]
  rw [← List.cons_append, dropTrail_append_nl]
  exact dropTrail_last_not_space hlast ha

lemma scanClose_of_none {ls : List Str}
    (h : ∀ l ∈ ls, pyStrip l ≠ ['-', '-', '-']) :
    scanClose ls = none := by
  induction ls with
  | nil => rfl
  | cons l t ih =>
    rw [scanClose]
    rw [if_neg (h l (by simp))]
    rw [ih fun x hx => h x (by simp [hx])]

lemma scanClose_app (L : List Str) (d : Str) (rest : List Str)
    (h : ∀ l ∈ L, pyStrip l ≠ ['-', '-', '-'])
    (hd : pyStrip d = ['-', '-', '-']) :
    scanClose (L ++ d :: rest) = some (L, rest) := by
  induction L with
  | nil => simp [scanClose, hd]
  | cons l t ih =>
    rw [List.cons_append, scanClose, if_neg (h l (by simp)),
      ih fun x hx => h x (by simp [hx])]

lemma splitColon_app (k : Str) (r : Str) (h : ∀ c ∈ k, c ≠ ':') :
    splitColon (k ++ ':' :: r) = some (k, r) := by
  induction k with
  | nil => simp [splitColon]
  | cons c t ih =>
    rw [List.cons_append, splitColon, if_neg (h c (by simp)),
      ih fun x hx => h x (by simp [hx])]
    rfl

end AddHeadings

namespace AddHeadings

lemma memStr_iff {L : List Str} {k : Str} : memStr L k = true ↔ k ∈ L := by
  induction L with
  | nil => simp [memStr]
  | cons a t ih =>
    rw [memStr]
    by_cases h : a = k
    · subst h; simp
    · rw [if_neg h, ih]
      simp [eq_comm, h]
      intro he
      exact absurd he.symm h

lemma memStr_append {A B : List Str} {k : Str} :
    memStr (A ++ B) k = (memStr A k || memStr B k) := by
  induction A with
  | nil => simp [memStr]
  | cons a t ih =>
    rw [List.cons_append, memStr, memStr]
    by_cases h : a = k
    · simp [h]
    · simp [if_neg h, ih]

lemma plainKey_elim {k : Str} (h : plainKey k = true) :
    ∃ c t, k = c :: t ∧ asciiLetter c = true ∧ k.all keyChar = true := by
  match k with
  | [] => simp [plainKey] at h
  | c :: t =>
    rw [plainKey] at h
    simp only [Bool.and_eq_true] at h
    exact ⟨c, t, rfl, h.1.1, h.1.2⟩

lemma plainScalar_elim {v : Str} (h : plainScalar v = true) :
    ∃ c t, v = c :: t ∧ asciiLetter c = true ∧ v.all plainChar = true ∧
      v.getLast? ≠ some ' ' := by
  match v with
  | [] => simp [plainScalar] at h
  | c :: t =>
    rw [plainScalar] at h
    simp only [Bool.and_eq_true] at h
    refine ⟨c, t, rfl, h.1.1.1, h.1.1.2, ?_⟩
    intro hcon
    rw [hcon] at h
    simp at h

lemma dumpLine_core_chars {k v : Str} (hk : plainKey k = true)
    (hv : plainScalar v = true) :
    ∀ c ∈ k ++ ':' :: ' ' :: v, c ≠ '\n' ∧ c ≠ '\r' := by
  intro c hc
  rcases plainKey_elim hk with ⟨_, _, _, _, hkall⟩
  rcases plainScalar_elim hv with ⟨_, _, _, _, hvall, _⟩
  rw [List.mem_append] at hc
  rcases hc with hc | hc
  · have := List.all_eq_true.mp hkall c hc
    exact ⟨(keyChar_facts this).1, (keyChar_facts this).2.1⟩
  · rcases hc with _ | ⟨_, hc⟩
    · exact ⟨by decide, by decide⟩
    · rcases hc with _ | ⟨_, hc⟩
      · exact ⟨by decide, by decide⟩
      · have := List.all_eq_true.mp hvall c hc
        exact ⟨(plainChar_facts this).1, (plainChar_facts this).2.1⟩

lemma pyStrip_dumpLine {k v : Str} (hk : plainKey k = true)
    (hv : plainScalar v = true) :
    pyStrip (dumpLine (k, v)) = k ++ ':' :: ' ' :: v := by
  rcases plainKey_elim hk with ⟨c, t, hkeq, hlet, _⟩
  rcases plainScalar_elim hv with ⟨vc, vt, hveq, _, hvall, hvlast⟩
  have hcore : dumpLine (k, v) = (k ++ ':' :: ' ' :: v) ++ ['\n'] := by
    simp [dumpLine]
  rw [hcore, hkeq]
  have hlast : ((c :: t) ++ ':' :: ' ' :: v).getLast? = v.getLast? := by
    rw [List.getLast?_append_of_ne_nil _ (by simp)]
    rw [hveq, List.getLast?_cons_cons, List.getLast?_cons_cons]
  cases hg : v.getLast? with
  | none =>
    rw [List.getLast?_eq_none_iff] at hg
    simp [hg] at hveq
  | some a =>
    have ha_mem : a ∈ v := List.mem_of_mem_getLast? (by simp [hg])
    have ha_ne : a ≠ ' ' := by
      intro he; subst he; exact hvlast hg
    have ha_pc : plainChar a = true := List.all_eq_true.mp hvall a ha_mem
    have ha_ns : pyIsSpace a = false := plainChar_not_space ha_pc ha_ne
    have hc_ns : pyIsSpace c = false := asciiLetter_not_space hlet
    have hlast2 : (c :: (t ++ ':' :: ' ' :: v)).getLast? = some a := by
      rw [← List.cons_append, hlast, hg]
    have := pyStrip_of_ends hc_ns hlast2 ha_ns
    simp only [List.cons_append, List.append_assoc] at this ⊢
    exact this

end AddHeadings

namespace AddHeadings

lemma entriesPlainB_elim {m : List (Str × Str)} (h : entriesPlainB m = true) :
    ∀ e ∈ m, plainKey e.1 = true ∧ plainScalar e.2 = true := by
  induction m with
  | nil => simp
  | cons e es ih =>
    rw [entriesPlainB, Bool.and_eq_true, Bool.and_eq_true] at h
    intro x hx
    rw [List.mem_cons] at hx
    rcases hx with hx | hx
    · subst hx; exact ⟨h.1.1, h.1.2⟩
    · exact ih h.2 x hx

lemma splitLines_dump {m : List (Str × Str)} (h : entriesPlainB m = true)
    (rest : Str) :
    splitLinesKeep (listJoin (m.map dumpLine) ++ rest) =
      m.map dumpLine ++ splitLinesKeep rest := by
  induction m with
  | nil => simp [listJoin]
  | cons e es ih =>
    rw [entriesPlainB, Bool.and_eq_true, Bool.and_eq_true] at h
    rw [List.map_cons, listJoin, List.append_assoc]
    have key : dumpLine e ++ (listJoin (es.map dumpLine) ++ rest) =
        (e.1 ++ ':' :: ' ' :: e.2) ++ '\n' :: (listJoin (es.map dumpLine) ++ rest) := by
      simp [dumpLine]
    rw [key, splitLinesKeep_line _ (dumpLine_core_chars h.1.1 h.1.2), ih h.2]
    have hline : dumpLine e = (e.1 ++ ':' :: ' ' :: e.2) ++ ['\n'] := by
      simp [dumpLine]
    rw [← hline]
    simp

lemma pyStrip_dumpLine_ne_dashes {e : Str × Str} (hk : plainKey e.1 = true)
    (hv : plainScalar e.2 = true) :
    pyStrip (dumpLine e) ≠ ['-', '-', '-'] := by
  rcases plainKey_elim hk with ⟨c, t, hkeq, hlet, _⟩
  have : pyStrip (dumpLine (e.1, e.2)) = e.1 ++ ':' :: ' ' :: e.2 :=
    pyStrip_dumpLine hk hv
  intro hcon
  rw [show (e.1, e.2) = e from rfl] at this
  rw [this, hkeq, List.cons_append] at hcon
  injection hcon with h1 _
  exact asciiLetter_ne_dash hlet h1

lemma parseKVLine_core {k v : Str} (hk : plainKey k = true)
    (hv : plainScalar v = true) :
    parseKVLine (k ++ ':' :: ' ' :: v) = some (k, v) := by
  rcases plainKey_elim hk with ⟨_, _, _, _, hkall⟩
  have hnc : ∀ c ∈ k, c ≠ ':' := fun c hc =>
    (keyChar_facts (List.all_eq_true.mp hkall c hc)).2.2
  rw [parseKVLine, splitColon_app k (' ' :: v) hnc]
  simp [hk, hv]

lemma parseKVLines_core {m : List (Str × Str)} (h : entriesPlainB m = true) :
    parseKVLines (m.map (fun e => e.1 ++ ':' :: ' ' :: e.2)) = some m := by
  induction m with
  | nil => rfl
  | cons e es ih =>
    rw [entriesPlainB, Bool.and_eq_true, Bool.and_eq_true] at h
    rw [List.map_cons, parseKVLines, parseKVLine_core h.1.1 h.1.2, ih h.2]

lemma stripLines_dump {m : List (Str × Str)} (h : entriesPlainB m = true)
    (hne : m ≠ []) :
    stripLines (yamlDump m) = m.map (fun e => e.1 ++ ':' :: ' ' :: e.2) := by
  have hdump : yamlDump m = listJoin (m.map dumpLine) := by
    cases m with
    | nil => exact absurd rfl hne
    | cons e es => rfl
  rw [stripLines, hdump]
  have hsplit := splitLines_dump h []
  rw [List.append_nil] at hsplit
  rw [show splitLinesKeep [] = [] from rfl] at hsplit
  rw [List.append_nil] at hsplit
  rw [hsplit, List.map_map]
  have hmap : (m.map (pyStrip ∘ dumpLine)) =
      m.map (fun e => e.1 ++ ':' :: ' ' :: e.2) := by
    apply List.map_congr_left
    intro e he
    have hp := entriesPlainB_elim h e he
    simp only [Function.comp_apply]
    rw [show dumpLine e = dumpLine (e.1, e.2) from rfl]
    exact pyStrip_dumpLine hp.1 hp.2
  rw [hmap]
  apply List.filter_eq_self.mpr
  intro l hl
  rcases List.mem_map.mp hl with ⟨e, he, hleq⟩
  have hp := entriesPlainB_elim h e he
  rcases plainKey_elim hp.1 with ⟨c, t, hkeq, _, _⟩
  subst hleq
  simp [hkeq]

lemma yaml_roundtrip {m : List (Str × Str)} (hp : entriesPlainB m = true)
    (hn : nodupBy (m.map Prod.fst) = true) (hne : m ≠ []) :
    yamlSafeLoad (yamlDump m) = some (some (YDoc.ymap m)) := by
  cases m with
  | nil => exact absurd rfl hne
  | cons e es =>
    have hsl := stripLines_dump hp hne
    rw [List.map_cons] at hsl
    have hkv := parseKVLines_core hp
    rw [List.map_cons] at hkv
    simp only [yamlSafeLoad, hsl, hkv, hn]
    simp

end AddHeadings

namespace AddHeadings

lemma startsWithS_app (p s : Str) : startsWithS (p ++ s) p = true := by
  induction p with
  | nil => cases s <;> rfl
  | cons c t ih => simpa [startsWithS] using ih

lemma dumpLine_ne_nil (e : Str × Str) : dumpLine e ≠ [] := by
  simp [dumpLine]

lemma yamlDump_last {m : List (Str × Str)} (hne : m ≠ []) :
    (yamlDump m).getLast? = some '\n' := by
  cases m with
  | nil => exact absurd rfl hne
  | cons e es =>
    rw [show yamlDump (e :: es) = listJoin ((e :: es).map dumpLine) from rfl]
    induction es generalizing e with
    | nil =>
      rw [List.map_cons, List.map_nil, listJoin, listJoin, List.append_nil]
      rw [show dumpLine e = (e.1 ++ ':' :: ' ' :: e.2) ++ ['\n'] from by simp [dumpLine]]
      exact List.getLast?_concat _
    | cons e2 es2 ih =>
      rw [List.map_cons, listJoin]
      rw [List.getLast?_append_of_ne_nil]
      · exact ih e2 (by simp)
      · rw [List.map_cons, listJoin]
        intro hcon
        rcases List.append_eq_nil.mp hcon with ⟨hc1, _⟩
        exact dumpLine_ne_nil e2 hc1

lemma parse_reconstruct {m : List (Str × Str)} (body : Str)
    (hp : entriesPlainB m = true) (hn : nodupBy (m.map Prod.fst) = true)
    (hne : m ≠ []) :
    parse_frontmatter (reconstruct_content m body) = (some (YDoc.ymap m), body) := by
  have hdl : ("---\n".data) = ['-', '-', '-', '\n'] := rfl
  have hdump : yamlDump m = listJoin (m.map dumpLine) := by
    cases m with
    | nil => exact absurd rfl hne
    | cons e es => rfl
  have hrec : reconstruct_content m body =
      ['-', '-', '-', '\n'] ++ (yamlDump m ++ (['-', '-', '-', '\n'] ++ body)) := by
    simp only [reconstruct_content, yamlDump_last hne, hdl]
    simp
  have hC : reconstruct_content m body =
      ['-', '-', '-'] ++ '\n' :: (yamlDump m ++ (['-', '-', '-', '\n'] ++ body)) := by
    rw [hrec]; rfl
  have h1 : ¬ (pyStrip (reconstruct_content m body) = []) := by
    rw [hrec]
    exact pyStrip_cons_ne_nil (by decide)
  have h2 : startsWithS (reconstruct_content m body) ("---\n".data) = true := by
    rw [hrec, hdl]
    exact startsWithS_app _ _
  have h3 : splitLinesKeep (reconstruct_content m body) =
      ['-', '-', '-', '\n'] ::
        (m.map dumpLine ++ (['-', '-', '-', '\n'] :: splitLinesKeep body)) := by
    rw [hC, splitLinesKeep_line _ (by decide), hdump]
    have hb : ['-', '-', '-', '\n'] ++ body = ['-', '-', '-'] ++ '\n' :: body := rfl
    rw [hb, splitLines_dump hp, splitLinesKeep_line _ (by decide)]
    rfl
  have h4 : scanClose (m.map dumpLine ++ (['-', '-', '-', '\n'] :: splitLinesKeep body)) =
      some (m.map dumpLine, splitLinesKeep body) := by
    apply scanClose_app
    · intro l hl
      rcases List.mem_map.mp hl with ⟨e, he, hleq⟩
      have hpe := entriesPlainB_elim hp e he
      subst hleq
      exact pyStrip_dumpLine_ne_dashes hpe.1 hpe.2
    · decide
  have h6 : yamlSafeLoad (yamlDump m) = some (some (YDoc.ymap m)) :=
    yaml_roundtrip hp hn hne
  rw [parse_frontmatter, if_neg h1]
  rw [h2]
  simp only [Bool.true_or, if_true]
  rw [h3]
  simp only []
  rw [h4]
  simp only []
  rw [← hdump, h6]
  simp only []
  rw [join_split]

end AddHeadings

namespace AddHeadings

lemma parseKVLine_plain {l k v : Str} (h : parseKVLine l = some (k, v)) :
    plainKey k = true ∧ plainScalar v = true := by
  rw [parseKVLine] at h
  split at h
  · exact absurd h (by simp)
  · rename_i k' rest hsc
    split at h
    · rename_i v' hr
      split at h
      · rename_i hpk
        injection h with he
        injection he with he1 he2
        subst he1; subst he2
        exact ⟨(Bool.and_eq_true _ _ |>.mp hpk).1, (Bool.and_eq_true _ _ |>.mp hpk).2⟩
      · exact absurd h (by simp)
    · exact absurd h (by simp)

lemma parseKVLines_plain {L : List Str} {m : List (Str × Str)}
    (h : parseKVLines L = some m) : entriesPlainB m = true := by
  induction L generalizing m with
  | nil =>
    rw [parseKVLines] at h
    injection h with he
    subst he
    rfl
  | cons l ls ih =>
    rw [parseKVLines] at h
    split at h
    · rename_i kv m' hkv hm
      injection h with he
      subst he
      rw [entriesPlainB]
      cases kv with
      | mk k v =>
        have := parseKVLine_plain hkv
        simp [this.1, this.2, ih hm]
    · exact absurd h (by simp)

lemma parseKVLines_cons_ne_nil {l : Str} {ls : List Str} {m : List (Str × Str)}
    (h : parseKVLines (l :: ls) = some m) : m ≠ [] := by
  rw [parseKVLines] at h
  split at h
  · rename_i kv m' _ _
    injection h with he
    subst he
    simp
  · exact absurd h (by simp)

lemma yamlSafeLoad_ymap {s : Str} {m : List (Str × Str)}
    (h : yamlSafeLoad s = some (some (YDoc.ymap m))) :
    entriesPlainB m = true ∧ nodupBy (m.map Prod.fst) = true ∧ m ≠ [] := by
  rw [yamlSafeLoad] at h
  split at h
  · simp at h
  · rename_i l ls hsl
    split at h
    · rename_i m' hkv
      split at h
      · rename_i hnd
        injection h with he
        injection he with he2
        injection he2 with he3
        subst he3
        exact ⟨parseKVLines_plain hkv, hnd, parseKVLines_cons_ne_nil hkv⟩
      · exact absurd h (by simp)
    · split at h
      · split at h
        · injection h with he
          injection he with he2
          exact absurd he2 (by simp)
        · exact absurd h (by simp)
      · exact absurd h (by simp)

lemma parse_fm_ymap {c : Str} {m : List (Str × Str)} {b : Str}
    (h : parse_frontmatter c = (some (YDoc.ymap m), b)) :
    entriesPlainB m = true ∧ nodupBy (m.map Prod.fst) = true := by
  rw [parse_frontmatter] at h
  split at h
  · exact absurd (congrArg Prod.fst h) (by simp)
  · split at h
    · split at h
      · exact absurd (congrArg Prod.fst h) (by simp)
      · split at h
        · exact absurd (congrArg Prod.fst h) (by simp)
        · rename_i fmLines bodyLines hscan
          split at h
          · exact absurd (congrArg Prod.fst h) (by simp)
          · injection h with h1 h2
            injection h1 with h1b
            injection h1b with h1c
            subst h1c
            exact ⟨rfl, rfl⟩
          · rename_i d hload
            injection h with h1 h2
            injection h1 with h1b
            subst h1b
            rcases yamlSafeLoad_ymap hload with ⟨hp, hn, _⟩
            exact ⟨hp, hn⟩
    · exact absurd (congrArg Prod.fst h) (by simp)

lemma parse_none {c : Str} (h : (parse_frontmatter c).1 = none) :
    parse_frontmatter c = (none, c) := by
  rw [parse_frontmatter] at h ⊢
  split at h
  · rename_i hstrip
    rw [if_pos hstrip]
  · rename_i hstrip
    split at h
    · rename_i hstart
      rw [if_neg hstrip, if_pos hstart]
      split at h
      · rfl
      · split at h
        · rfl
        · split at h
          · rfl
          · simp at h
          · simp at h
    · rename_i hstart
      rw [if_neg hstrip, if_neg hstart]

end AddHeadings

namespace AddHeadings

lemma entriesPlainB_append {A B : List (Str × Str)} (ha : entriesPlainB A = true)
    (hb : entriesPlainB B = true) : entriesPlainB (A ++ B) = true := by
  induction A with
  | nil => simpa using hb
  | cons e es ih =>
    rw [entriesPlainB, Bool.and_eq_true, Bool.and_eq_true] at ha
    rw [List.cons_append, entriesPlainB]
    simp [ha.1.1, ha.1.2, ih ha.2]

lemma nodupBy_concat {L : List Str} {k : Str} (hn : nodupBy L = true)
    (hk : memStr L k = false) : nodupBy (L ++ [k]) = true := by
  induction L with
  | nil => simp [nodupBy, memStr]
  | cons a t ih =>
    rw [nodupBy, Bool.and_eq_true] at hn
    rw [memStr] at hk
    by_cases hak : a = k
    · rw [if_pos hak] at hk; exact absurd hk (by simp)
    · rw [if_neg hak] at hk
      rw [List.cons_append, nodupBy, memStr_append]
      have h1 : memStr [k] a = false := by
        rw [memStr]
        rw [if_neg (fun he => hak he.symm)]
        rfl
      simp only [hn.1, h1, Bool.or_false]
      simp [ih hn.2 hk, hn.1]

/-- C1: for a document parsing to a flat metadata mapping without `heading`,
setting `heading` and serializing yields a text whose metadata block reparses
to the same mapping with `heading` appended last (one extra key, original
pairs unchanged) and the same body; for a document with no metadata block,
the serialized result keeps the entire original text as body and reparses to
exactly the one-key mapping `heading ↦ v`. -/
theorem c1_roundtrip (c : Str) (m : List (Str × Str)) (b v : Str)
    (hv : plainScalar v = true) :
    (parse_frontmatter c = (some (YDoc.ymap m), b) →
      headingKey ∉ m.map Prod.fst →
      dictSet m headingKey v = m ++ [(headingKey, v)] ∧
      (m ++ [(headingKey, v)]).length = m.length + 1 ∧
      parse_frontmatter (reconstruct_content (dictSet m headingKey v) b) =
        (some (YDoc.ymap (m ++ [(headingKey, v)])), b)) ∧
    (parse_frontmatter c = (none, c) →
      parse_frontmatter (reconstruct_content (dictSet [] headingKey v) c) =
        (some (YDoc.ymap [(headingKey, v)]), c)) := by
  have hpk : plainKey headingKey = true := by decide
  constructor
  · intro hp hnotin
    rcases parse_fm_ymap hp with ⟨hplain, hnodup⟩
    have hkfalse : hasKey m headingKey = false := by
      cases hhk : hasKey m headingKey
      · rfl
      · exact absurd (memStr_iff.mp hhk) hnotin
    have hds : dictSet m headingKey v = m ++ [(headingKey, v)] := by
      rw [dictSet, hkfalse]
      simp
    refine ⟨hds, by simp, ?_⟩
    rw [hds]
    apply parse_reconstruct
    · exact entriesPlainB_append hplain (by simp [entriesPlainB, hpk, hv])
    · rw [List.map_append]
      exact nodupBy_concat hnodup hkfalse
    · simp
  · intro _
    have hds : dictSet [] headingKey v = [(headingKey, v)] := by
      rw [dictSet]
      simp [hasKey, memStr]
    rw [hds]
    apply parse_reconstruct
    · simp [entriesPlainB, hpk, hv]
    · simp [nodupBy, memStr]
    · simp

/-- Witness for C1 at a concrete two-part instance. -/
theorem c1_roundtrip_witness :
    plainScalar ("My Note".data) = true ∧
    parse_frontmatter ("---\ntitle: Test\n---\nbody\n".data) =
      (some (YDoc.ymap [("title".data, "Test".data)]), "body\n".data) ∧
    headingKey ∉ [("title".data, "Test".data)].map Prod.fst ∧
    parse_frontmatter
        (reconstruct_content
          (dictSet [("title".data, "Test".data)] headingKey ("My Note".data))
          ("body\n".data)) =
      (some (YDoc.ymap
        ([("title".data, "Test".data)] ++ [(headingKey, "My Note".data)])),
        "body\n".data) :=
  ⟨by decide, by decide, by decide,
    ((c1_roundtrip ("---\ntitle: Test\n---\nbody\n".data)
        [("title".data, "Test".data)] ("body\n".data) ("My Note".data)
        (by decide)).1 (by decide) (by decide)).2.2⟩

end AddHeadings

namespace AddHeadings

lemma mem_listJoin {c : Char} {L : List Str} (h : c ∈ listJoin L) :
    ∃ l ∈ L, c ∈ l := by
  induction L with
  | nil => simp [listJoin] at h
  | cons l ls ih =>
    rw [listJoin, List.mem_append] at h
    rcases h with h | h
    · exact ⟨l, by simp, h⟩
    · rcases ih h with ⟨x, hx, hcx⟩
      exact ⟨x, by simp [hx], hcx⟩

lemma pyStrip_eq_nil_iff {s : Str} :
    pyStrip s = [] ↔ ∀ c ∈ s, pyIsSpace c = true := by
  constructor
  · intro h c hc
    rw [pyStrip, dropTrail_eq_nil_iff] at h
    by_cases hws : pyIsSpace c = true
    · exact hws
    · exfalso
      have hsplit : s.takeWhile pyIsSpace ++ s.dropWhile pyIsSpace = s :=
        List.takeWhile_append_dropWhile pyIsSpace s
      rw [← hsplit, List.mem_append] at hc
      rcases hc with hc | hc
      · exact hws (List.mem_takeWhile_imp hc)
      · exact hws (h c hc)
  · intro h
    rw [pyStrip, dropTrail_eq_nil_iff]
    intro c hc
    exact h c ((List.dropWhile_sublist pyIsSpace).mem hc)

lemma mem_listJoin_of {c : Char} {L : List Str} {l : Str} (hl : l ∈ L)
    (hc : c ∈ l) : c ∈ listJoin L := by
  induction L with
  | nil => simp at hl
  | cons x xs ih =>
    rw [listJoin, List.mem_append]
    rw [List.mem_cons] at hl
    rcases hl with hl | hl
    · subst hl; exact Or.inl hc
    · exact Or.inr (ih hl)

lemma stripLines_blank {s : Str} (h : pyStrip s = []) : stripLines s = [] := by
  rw [stripLines, List.filter_eq_nil_iff]
  intro l hl
  rcases List.mem_map.mp hl with ⟨l0, hl0, hleq⟩
  have hall : ∀ c ∈ l0, pyIsSpace c = true := by
    intro c hc
    apply pyStrip_eq_nil_iff.mp h
    rw [← join_split s]
    exact mem_listJoin_of hl0 hc
  have hnil : pyStrip l0 = [] := pyStrip_eq_nil_iff.mpr hall
  rw [← hleq, hnil]
  simp

end AddHeadings

namespace AddHeadings

lemma startsWithS_cons_elim {c : Char} {s : Str} {d : Char} {p : Str}
    (h : startsWithS (c :: s) (d :: p) = true) :
    c = d ∧ startsWithS s p = true := by
  by_cases hcd : c = d
  · refine ⟨hcd, ?_⟩
    rw [startsWithS, if_pos hcd] at h
    exact h
  · rw [startsWithS, if_neg hcd] at h
    exact absurd h (by simp)

lemma yamlSafeLoad_blank {s : Str} (h : pyStrip s = []) :
    yamlSafeLoad s = some none := by
  rw [yamlSafeLoad, stripLines_blank h]

lemma strip_ne_of_starts {content : Str}
    (h : (startsWithS content ("---\n".data) ||
      startsWithS content ("---\r\n".data)) = true) :
    ¬ pyStrip content = [] := by
  cases content with
  | nil => revert h; decide
  | cons a t =>
    have ha : a = '-' := by
      rcases Bool.or_eq_true _ _ |>.mp h with h1 | h1
      · rw [show ("---\n".data) = '-' :: "--\n".data from rfl] at h1
        exact (startsWithS_cons_elim h1).1
      · rw [show ("---\r\n".data) = '-' :: "--\r\n".data from rfl] at h1
        exact (startsWithS_cons_elim h1).1
    subst ha
    exact pyStrip_cons_ne_nil (by decide)

/-- C2: parse keeps the whole original text and reports no metadata whenever
the opening delimiter is never closed or the enclosed block is invalid, and
an empty or whitespace-only block yields the empty mapping, not absence. -/
theorem c2_parse_robust (content : Str) :
    ((∀ l ∈ (splitLinesKeep content).drop 1, pyStrip l ≠ ['-', '-', '-']) →
      parse_frontmatter content = (none, content)) ∧
    (∀ fmLines bodyLines,
      scanClose ((splitLinesKeep content).drop 1) = some (fmLines, bodyLines) →
      yamlSafeLoad (listJoin fmLines) = none →
      parse_frontmatter content = (none, content)) ∧
    (∀ fmLines bodyLines,
      (startsWithS content ("---\n".data) ||
        startsWithS content ("---\r\n".data)) = true →
      scanClose ((splitLinesKeep content).drop 1) = some (fmLines, bodyLines) →
      pyStrip (listJoin fmLines) = [] →
      parse_frontmatter content =
        (some (YDoc.ymap []), listJoin bodyLines)) := by
  refine ⟨?_, ?_, ?_⟩
  · intro hnc
    rw [parse_frontmatter]
    by_cases hstrip : pyStrip content = []
    · rw [if_pos hstrip]
    · rw [if_neg hstrip]
      by_cases hstart : (startsWithS content ("---\n".data) ||
          startsWithS content ("---\r\n".data)) = true
      · rw [if_pos hstart]
        cases hsl : splitLinesKeep content with
        | nil => rfl
        | cons l rest =>
          have hrest : ∀ x ∈ rest, pyStrip x ≠ ['-', '-', '-'] := by
            intro x hx
            apply hnc
            rw [hsl]
            simpa using hx
          simp only []
          rw [scanClose_of_none hrest]
      · rw [if_neg hstart]
  · intro fmLines bodyLines hscan hload
    rw [parse_frontmatter]
    by_cases hstrip : pyStrip content = []
    · rw [if_pos hstrip]
    · rw [if_neg hstrip]
      by_cases hstart : (startsWithS content ("---\n".data) ||
          startsWithS content ("---\r\n".data)) = true
      · rw [if_pos hstart]
        cases hsl : splitLinesKeep content with
        | nil => rfl
        | cons l rest =>
          rw [hsl] at hscan
          simp only [List.drop_succ_cons, List.drop_zero] at hscan
          simp only []
          rw [hscan]
          simp only []
          rw [hload]
      · rw [if_neg hstart]
  · intro fmLines bodyLines hstart hscan hblank
    rw [parse_frontmatter]
    rw [if_neg (strip_ne_of_starts hstart), if_pos hstart]
    cases hsl : splitLinesKeep content with
    | nil =>
      rw [hsl] at hscan
      simp [scanClose] at hscan
    | cons l rest =>
      rw [hsl] at hscan
      simp only [List.drop_succ_cons, List.drop_zero] at hscan
      simp only []
      rw [hscan]
      simp only []
      rw [yamlSafeLoad_blank hblank]

/-- Witness for C2 at three concrete instances: an unclosed block, an
invalid block, and a whitespace-only block. -/
theorem c2_parse_robust_witness :
    parse_frontmatter ("---\ntitle: x\n".data) =
      (none, "---\ntitle: x\n".data) ∧
    parse_frontmatter ("---\ntitle: [x\n---\nbody\n".data) =
      (none, "---\ntitle: [x\n---\nbody\n".data) ∧
    parse_frontmatter ("---\n   \n---\nbody\n".data) =
      (some (YDoc.ymap []), "body\n".data) :=
  ⟨(c2_parse_robust ("---\ntitle: x\n".data)).1 (by decide),
    (c2_parse_robust ("---\ntitle: [x\n---\nbody\n".data)).2.1
      ["title: [x\n".data] ["body\n".data] (by decide) (by decide),
    by
      have h := (c2_parse_robust ("---\n   \n---\nbody\n".data)).2.2
        ["   \n".data] ["body\n".data] (by decide) (by decide) (by decide)
      rw [h]
      decide⟩

end AddHeadings

namespace AddHeadings

lemma process_file_read_err {cfg : Config} {f : VFile} (hread : f.readRes = none) :
    process_file cfg f = ⟨FileOutcome.errored, f, false, false⟩ := by
  rw [process_file, hread]

lemma process_file_skip {cfg : Config} {f : VFile} {c : Str}
    (hread : f.readRes = some c)
    (htr : ydocTruthy (parse_frontmatter c).1 = true)
    (hhd : ydocHasHeading (parse_frontmatter c).1 = true)
    (hskip : cfg.skip_existing = true) :
    process_file cfg f = ⟨FileOutcome.skipped_existing, f, false, false⟩ := by
  rw [process_file, hread]
  simp only [htr, hhd, hskip, Bool.and_self, if_true]

lemma process_file_scalar_err {cfg : Config} {f : VFile} {c : Str} {s : Str}
    (hread : f.readRes = some c)
    (hfm : (parse_frontmatter c).1 = some (YDoc.yscalar s))
    (hnh : containsSub s headingKey = false) :
    process_file cfg f = ⟨FileOutcome.errored, f, false, false⟩ := by
  rw [process_file, hread]
  simp only [hfm, ydocTruthy, ydocHasHeading, hnh, Bool.and_false, Bool.false_and,
    Bool.true_and, if_false]
  rfl

lemma process_file_write_none {cfg : Config} {f : VFile} {c : Str}
    (hread : f.readRes = some c)
    (hfm : (parse_frontmatter c).1 = none)
    (hdry : cfg.dry_run = false) (hwf : f.writeFails = false) :
    process_file cfg f = ⟨FileOutcome.processed,
      { f with readRes := some (reconstruct_content
          [(headingKey, generate_heading_value cfg f.dirs f.fname)]
          (parse_frontmatter c).2) },
      cfg.backup, true⟩ := by
  rw [process_file, hread]
  simp only [hfm, ydocTruthy, Bool.false_and, if_false, hdry, hwf]
  have hds : dictSet [] headingKey (generate_heading_value cfg f.dirs f.fname) =
      [(headingKey, generate_heading_value cfg f.dirs f.fname)] := by
    rw [dictSet]
    simp [hasKey, memStr]
  simp [hds]

lemma process_file_write_ymap {cfg : Config} {f : VFile} {c : Str}
    {m : List (Str × Str)}
    (hread : f.readRes = some c)
    (hfm : (parse_frontmatter c).1 = some (YDoc.ymap m))
    (hnk : hasKey m headingKey = false)
    (hdry : cfg.dry_run = false) (hwf : f.writeFails = false) :
    process_file cfg f = ⟨FileOutcome.processed,
      { f with readRes := some (reconstruct_content
          (m ++ [(headingKey, generate_heading_value cfg f.dirs f.fname)])
          (parse_frontmatter c).2) },
      cfg.backup, true⟩ := by
  rw [process_file, hread]
  simp only [hfm, ydocTruthy, ydocHasHeading, hnk, Bool.and_false, Bool.false_and,
    if_false, hdry, hwf]
  have hds : dictSet m headingKey (generate_heading_value cfg f.dirs f.fname) =
      m ++ [(headingKey, generate_heading_value cfg f.dirs f.fname)] := by
    rw [dictSet, hnk]
    simp
  simp [hds]

end AddHeadings

namespace AddHeadings

lemma hasKey_append_self (m : List (Str × Str)) (k v : Str) :
    hasKey (m ++ [(k, v)]) k = true := by
  rw [hasKey, List.map_append, memStr_append]
  simp [memStr]

lemma process_file_idem {cfg : Config} {f : VFile}
    (hskip : cfg.skip_existing = true) (hdry : cfg.dry_run = false)
    (hpre : filePre cfg f = true) :
    (process_file cfg (process_file cfg f).fileAfter).fileAfter =
      (process_file cfg f).fileAfter ∧
    (process_file cfg (process_file cfg f).fileAfter).outcome =
      FileOutcome.skipped_existing := by
  rw [filePre, Bool.and_eq_true] at hpre
  have hwf : f.writeFails = false := by
    have h := hpre.1
    simp at h
    exact h
  have hpre2 := hpre.2
  rcases hread : f.readRes with _ | c
  · rw [hread] at hpre2
    exact absurd hpre2 (by simp)
  rw [hread] at hpre2
  simp only [] at hpre2
  set v := generate_heading_value cfg f.dirs f.fname with hvdef
  have hpk : plainKey headingKey = true := by decide
  rcases hfm : (parse_frontmatter c).1 with _ | d
  · -- no metadata block: run 1 writes a fresh one-key block
    rw [hfm] at hpre2
    simp only [] at hpre2
    have h1 := process_file_write_none hread hfm hdry hwf
    have hrt := parse_reconstruct ((parse_frontmatter c).2)
      (m := [(headingKey, v)])
      (by simp [entriesPlainB, hpk, hpre2])
      (by simp [nodupBy, memStr])
      (by simp)
    rw [h1]
    have h2 := process_file_skip
      (f := { f with readRes := some (reconstruct_content [(headingKey, v)]
        ((parse_frontmatter c).2)) })
      (c := reconstruct_content [(headingKey, v)] ((parse_frontmatter c).2))
      rfl
      (by rw [hrt]; simp [ydocTruthy])
      (by rw [hrt]; simp [ydocHasHeading, hasKey, memStr])
      hskip
    rw [h2]
    exact ⟨rfl, rfl⟩
  · cases d with
    | ymap m =>
      rw [hfm] at hpre2
      simp only [] at hpre2
      by_cases hhk : hasKey m headingKey = true
      · -- heading already present: both runs skip
        have hmne : m ≠ [] := by
          intro he
          subst he
          rw [show hasKey ([] : List (Str × Str)) headingKey = false from rfl] at hhk
          exact absurd hhk (by simp)
        have htr : ydocTruthy (parse_frontmatter c).1 = true := by
          rw [hfm]
          cases m with
          | nil => exact absurd rfl hmne
          | cons e es => simp [ydocTruthy]
        have hhd : ydocHasHeading (parse_frontmatter c).1 = true := by
          rw [hfm]
          simpa [ydocHasHeading] using hhk
        have h1 := process_file_skip hread htr hhd hskip
        rw [h1]
        simp only []
        rw [h1]
        exact ⟨rfl, rfl⟩
      · -- heading newly appended: run 2 skips on the rewritten content
        have hkf : hasKey m headingKey = false := by
          cases h : hasKey m headingKey
          · rfl
          · exact absurd h hhk
        have hv : plainScalar v = true := by
          rcases Bool.or_eq_true _ _ |>.mp hpre2 with h | h
          · exact absurd h hhk
          · exact h
        have hp2 : parse_frontmatter c = (some (YDoc.ymap m), (parse_frontmatter c).2) := by
          rw [← hfm]
        rcases parse_fm_ymap hp2 with ⟨hplain, hnodup⟩
        have h1 := process_file_write_ymap hread hfm hkf hdry hwf
        have hrt := parse_reconstruct ((parse_frontmatter c).2)
          (m := m ++ [(headingKey, v)])
          (entriesPlainB_append hplain (by simp [entriesPlainB, hpk, hv]))
          (by rw [List.map_append]; exact nodupBy_concat hnodup hkf)
          (by simp)
        rw [h1]
        have h2 := process_file_skip
          (f := { f with readRes := some (reconstruct_content
            (m ++ [(headingKey, v)]) ((parse_frontmatter c).2)) })
          (c := reconstruct_content (m ++ [(headingKey, v)])
            ((parse_frontmatter c).2))
          rfl
          (by rw [hrt]; simp [ydocTruthy])
          (by rw [hrt]; simp [ydocHasHeading, hasKey_append_self])
          hskip
        rw [h2]
        exact ⟨rfl, rfl⟩
    | yscalar s =>
      rw [hfm] at hpre2
      simp only [] at hpre2
      have htr : ydocTruthy (parse_frontmatter c).1 = true := by
        rw [hfm]; rfl
      have hhd : ydocHasHeading (parse_frontmatter c).1 = true := by
        rw [hfm]
        simpa [ydocHasHeading] using hpre2
      have h1 := process_file_skip hread htr hhd hskip
      rw [h1]
      simp only []
      rw [h1]
      exact ⟨rfl, rfl⟩

end AddHeadings

namespace AddHeadings

/-- C3 counterexample: a vault whose single file has a scalar (non-mapping)
metadata block without the substring `heading` errors on the first run —
the heading item assignment raises `TypeError` — leaves the content
unchanged, and errors again (not `skipped_existing`) on the second run. -/
theorem c3_counterexample :
    files_after cfgBase
        [⟨[], "a.md".data, some ("---\nhello\n---\nbody\n".data), false⟩] =
      [⟨[], "a.md".data, some ("---\nhello\n---\nbody\n".data), false⟩] ∧
    (run_results cfgBase (files_after cfgBase
        [⟨[], "a.md".data, some ("---\nhello\n---\nbody\n".data), false⟩])).map
        FileResult.outcome = [FileOutcome.errored] := by
  decide

/-- C3 (amended): with skip-existing enabled and dry-run off, for every vault
whose files are readable and writable and whose parsed frontmatter is absent,
a flat mapping, or a scalar containing `heading` (with generated heading
values in the plain-scalar subset), a second run on the output of the first
leaves every file identical and reports `skipped_existing` for every file;
files outside this precondition (e.g. scalar frontmatter without `heading`)
error on both runs instead. -/
theorem c3_idempotent (cfg : Config) (files : List VFile)
    (hskip : cfg.skip_existing = true) (hdry : cfg.dry_run = false)
    (hpre : ∀ f ∈ files, filePre cfg f = true) :
    files_after cfg (files_after cfg files) = files_after cfg files ∧
    ∀ r ∈ run_results cfg (files_after cfg files),
      r.outcome = FileOutcome.skipped_existing := by
  induction files with
  | nil => exact ⟨rfl, by simp [run_results, files_after]⟩
  | cons f fs ih =>
    have hf := hpre f (by simp)
    have hfs : ∀ x ∈ fs, filePre cfg x = true := fun x hx => hpre x (by simp [hx])
    rcases ih hfs with ⟨ih1, ih2⟩
    rcases process_file_idem hskip hdry hf with ⟨hA, hO⟩
    constructor
    · simp only [files_after, run_results, List.map_cons] at ih1 ⊢
      rw [hA, ih1]
    · intro r hr
      simp only [files_after, run_results, List.map_cons, List.mem_cons] at hr
      rcases hr with hr | hr
      · subst hr; exact hO
      · apply ih2
        simpa [files_after, run_results] using hr

/-- Witness for C3 (amended) on a one-file vault without frontmatter. -/
theorem c3_idempotent_witness :
    cfgBase.skip_existing = true ∧ cfgBase.dry_run = false ∧
    (∀ f ∈ [(⟨[], "note.md".data, some ("body\n".data), false⟩ : VFile)],
      filePre cfgBase f = true) ∧
    (files_after cfgBase (files_after cfgBase
        [⟨[], "note.md".data, some ("body\n".data), false⟩]) =
      files_after cfgBase [⟨[], "note.md".data, some ("body\n".data), false⟩] ∧
    ∀ r ∈ run_results cfgBase (files_after cfgBase
        [⟨[], "note.md".data, some ("body\n".data), false⟩]),
      r.outcome = FileOutcome.skipped_existing) :=
  ⟨rfl, rfl, by decide,
    c3_idempotent cfgBase [⟨[], "note.md".data, some ("body\n".data), false⟩]
      rfl rfl (by decide)⟩

end AddHeadings

namespace AddHeadings

lemma process_file_dry {cfg : Config} {f : VFile} (hdry : cfg.dry_run = true) :
    (process_file cfg f).fileAfter = f ∧
    (process_file cfg f).madeBackup = false ∧
    (process_file cfg f).wroteFile = false ∧
    ((process_file cfg f).outcome = FileOutcome.processed ↔
      eligible cfg f = true) := by
  rcases hread : f.readRes with _ | c
  · rw [process_file_read_err hread, eligible, hread]
    simp
  · rw [process_file, hread, eligible, hread]
    simp only []
    by_cases hskipc : (ydocTruthy (parse_frontmatter c).1 &&
        ydocHasHeading (parse_frontmatter c).1 && cfg.skip_existing) = true
    · rw [if_pos hskipc, if_pos hskipc]
      simp
    · rw [if_neg hskipc, if_neg hskipc]
      rcases hfm : (parse_frontmatter c).1 with _ | d
      · simp [hdry]
      · cases d with
        | ymap m => simp [hdry]
        | yscalar s => simp

end AddHeadings

namespace AddHeadings

/-- C8: in dry-run mode every file keeps its pre-run content and no backup
or write is issued, while the `processed` counter equals the number of
eligible files. -/
theorem c8_dry_run (cfg : Config) (files : List VFile)
    (hdry : cfg.dry_run = true) :
    files_after cfg files = files ∧
    (∀ r ∈ run_results cfg files, r.madeBackup = false ∧ r.wroteFile = false) ∧
    stat_count cfg files FileOutcome.processed =
      (files.filter (eligible cfg)).length := by
  induction files with
  | nil => exact ⟨rfl, by simp [run_results], rfl⟩
  | cons f fs ih =>
    rcases ih with ⟨ih1, ih2, ih3⟩
    rcases process_file_dry (f := f) hdry with ⟨hA, hB, hW, hE⟩
    refine ⟨?_, ?_, ?_⟩
    · simp only [files_after, run_results, List.map_cons] at ih1 ⊢
      rw [hA, ih1]
    · intro r hr
      simp only [run_results, List.map_cons, List.mem_cons] at hr
      rcases hr with hr | hr
      · subst hr; exact ⟨hB, hW⟩
      · exact ih2 r (by simpa [run_results] using hr)
    · simp only [stat_count, run_results, List.map_cons, List.filter_cons]
      simp only [stat_count, run_results] at ih3
      by_cases he : eligible cfg f = true
      · have ho : (process_file cfg f).outcome = FileOutcome.processed :=
          hE.mpr he
        simp [ho, he, ih3]
      · have ho : ¬((process_file cfg f).outcome = FileOutcome.processed) :=
          fun h => he (hE.mp h)
        have he2 : eligible cfg f = false := by
          cases h : eligible cfg f
          · rfl
          · exact absurd h he
        simp [ho, he2, ih3]

/-- Witness for C8 on a one-file vault in dry-run mode. -/
theorem c8_dry_run_witness :
    ({ cfgBase with dry_run := true } : Config).dry_run = true ∧
    (files_after { cfgBase with dry_run := true }
        [⟨[], "note.md".data, some ("body\n".data), false⟩] =
      [⟨[], "note.md".data, some ("body\n".data), false⟩] ∧
    (∀ r ∈ run_results { cfgBase with dry_run := true }
        [⟨[], "note.md".data, some ("body\n".data), false⟩],
      r.madeBackup = false ∧ r.wroteFile = false) ∧
    stat_count { cfgBase with dry_run := true }
        [⟨[], "note.md".data, some ("body\n".data), false⟩]
        FileOutcome.processed =
      ([(⟨[], "note.md".data, some ("body\n".data), false⟩ : VFile)].filter
        (eligible { cfgBase with dry_run := true })).length) :=
  ⟨rfl, c8_dry_run { cfgBase with dry_run := true }
    [⟨[], "note.md".data, some ("body\n".data), false⟩] rfl⟩

end AddHeadings

namespace AddHeadings

/-- C9: per-file exceptions are confined — the run over `pre ++ f :: post`
is the concatenation of the independent per-file results (so an erroring
file does not abort the run or perturb any other file), the run completes
with one result per file, the `errors` counter decomposes additively, and a
file whose processing raises contributes exactly one error. -/
theorem c9_errors_isolated (cfg : Config) (pre post : List VFile) (f : VFile) :
    run_results cfg (pre ++ f :: post) =
      run_results cfg pre ++ process_file cfg f :: run_results cfg post ∧
    (run_results cfg (pre ++ f :: post)).length =
      pre.length + 1 + post.length ∧
    stat_count cfg (pre ++ f :: post) FileOutcome.errored =
      stat_count cfg pre FileOutcome.errored +
        stat_count cfg [f] FileOutcome.errored +
        stat_count cfg post FileOutcome.errored ∧
    ((process_file cfg f).outcome = FileOutcome.errored →
      stat_count cfg [f] FileOutcome.errored = 1) := by
  refine ⟨?_, ?_, ?_, ?_⟩
  · simp [run_results]
  · simp [run_results]
    omega
  · simp only [stat_count, run_results, List.map_append, List.map_cons,
      List.filter_append, List.length_append, List.map_nil, List.filter_cons]
    by_cases ho : (process_file cfg f).outcome = FileOutcome.errored
    · simp [ho]
      omega
    · simp [ho]
  · intro ho
    simp [stat_count, run_results, ho]

/-- Witness for C9: an unreadable file contributes exactly one error. -/
theorem c9_errors_isolated_witness :
    (process_file cfgBase (⟨[], "bad.md".data, none, false⟩ : VFile)).outcome =
      FileOutcome.errored ∧
    stat_count cfgBase [⟨[], "bad.md".data, none, false⟩]
      FileOutcome.errored = 1 :=
  ⟨by decide,
    (c9_errors_isolated cfgBase [] [] ⟨[], "bad.md".data, none, false⟩).2.2.2
      (by decide)⟩

end AddHeadings

namespace AddHeadings

/-- C4: evaluation of `_to_title_case` at the examples of the spec.  The first
two examples hold, but `"01-projects"` evaluates to `"01 Projects"`, not
`"Projects"`: hyphens are replaced by spaces before the `^\d{2}-` prefix
regex runs, so the organizational-prefix strip can never fire. -/
theorem c4_title_case_eval :
    to_title_case ("my-note".data) = "My Note".data ∧
    to_title_case ("api-documentation".data) = "API Documentation".data ∧
    to_title_case ("01-projects".data) = "01 Projects".data ∧
    to_title_case ("01-projects".data) ≠ "Projects".data := by
  decide

/-- C5: evaluation of the preserve-set checks.  Variants of an
uppercase-stored term normalize to it (`api` → `API`), and the exact stored
mixed-case form is kept (`iOS` → `iOS`), but other casings of a mixed-case
term are not: `ios` upper-cases to `IOS`, which is not in the stored set, so
it falls through to `capitalize` and becomes `Ios`. -/
theorem c5_preserve_terms_eval :
    to_title_case ("api-Api-API".data) = "API API API".data ∧
    to_title_case ("iOS-development".data) = "iOS Development".data ∧
    to_title_case ("ios-development".data) = "Ios Development".data ∧
    to_title_case ("ios-development".data) ≠ "iOS Development".data := by
  decide

/-- C6 counterexample: with both `preserve_case` and `title_case` enabled,
the summary rule still title-cases the project name. -/
theorem c6_counterexample :
    generate_heading_value { cfgBase with title_case := true, preserve_case := true }
        [] ("my-note-summary.md".data) = "My Note - Summary".data ∧
    generate_heading_value { cfgBase with title_case := true, preserve_case := true }
        [] ("my-note-summary.md".data) ≠ "my-note - Summary".data := by
  decide

/-- C6 (amended): `preserve_case` suppresses title-casing only in the
default rule — a file that matches none of the daily-note, summary,
template, index or readme rules keeps its stem verbatim whenever
`preserve_case` is set, regardless of `title_case`; the summary, index and
readme rules title-case whenever `title_case` is set, regardless of
`preserve_case`. -/
theorem c6_amended (cfg : Config) (dirs : List Str) (fname : Str)
    (hpc : cfg.preserve_case = true)
    (h1 : is_daily_note cfg (relStrOf dirs fname) = false)
    (h2 : endsWithS (stemOf fname) ("-summary".data) = false)
    (h3 : is_template_file (relStrOf dirs fname) (stemOf fname) = false)
    (h4 : ¬(toLowerS (stemOf fname) = "index".data))
    (h5 : ¬(toUpperS (stemOf fname) = "README".data)) :
    generate_heading_value cfg dirs fname = stemOf fname := by
  rw [generate_heading_value]
  simp only [h1, h2, h3, hpc, Bool.false_eq_true, if_false, Bool.not_true,
    Bool.and_false]
  rw [if_neg h4, if_neg h5]

/-- Witness for C6 (amended). -/
theorem c6_amended_witness :
    ({ cfgBase with title_case := true, preserve_case := true } : Config).preserve_case = true ∧
    is_daily_note { cfgBase with title_case := true, preserve_case := true }
      (relStrOf [] ("my-note.md".data)) = false ∧
    endsWithS (stemOf ("my-note.md".data)) ("-summary".data) = false ∧
    is_template_file (relStrOf [] ("my-note.md".data))
      (stemOf ("my-note.md".data)) = false ∧
    ¬(toLowerS (stemOf ("my-note.md".data)) = "index".data) ∧
    ¬(toUpperS (stemOf ("my-note.md".data)) = "README".data) ∧
    generate_heading_value { cfgBase with title_case := true, preserve_case := true }
      [] ("my-note.md".data) = stemOf ("my-note.md".data) :=
  ⟨rfl, by decide, by decide, by decide, by decide, by decide,
    c6_amended { cfgBase with title_case := true, preserve_case := true }
      [] ("my-note.md".data) rfl (by decide) (by decide) (by decide)
      (by decide) (by decide)⟩

/-- C7 counterexample: the daily-note rule precedes the summary rule, so
`journal/index-summary.md` receives a daily-note heading, not
`"index - Summary"`. -/
theorem c7_counterexample :
    generate_heading_value cfgBase ["journal".data] ("index-summary.md".data) =
      "Daily Note index-summary".data ∧
    generate_heading_value cfgBase ["journal".data] ("index-summary.md".data) ≠
      "index - Summary".data := by
  decide

/-- C7 (amended): with title-case disabled, every file whose stem is
`index-summary` and whose relative path is not classified as a daily note
gets heading `"index - Summary"` via the summary rule (which precedes the
template, index and readme rules). -/
theorem c7_amended (cfg : Config) (dirs : List Str) (fname : Str)
    (htc : cfg.title_case = false)
    (hstem : stemOf fname = "index-summary".data)
    (hdn : is_daily_note cfg (relStrOf dirs fname) = false) :
    generate_heading_value cfg dirs fname = "index - Summary".data := by
  rw [generate_heading_value]
  simp only [hstem, hdn, Bool.false_eq_true, if_false]
  rw [if_pos (show endsWithS ("index-summary".data) ("-summary".data) = true from
    by decide)]
  rw [htc]
  decide

/-- Witness for C7 (amended). -/
theorem c7_amended_witness :
    cfgBase.title_case = false ∧
    stemOf ("index-summary.md".data) = "index-summary".data ∧
    is_daily_note cfgBase (relStrOf ["projects".data] ("index-summary.md".data)) = false ∧
    generate_heading_value cfgBase ["projects".data] ("index-summary.md".data) =
      "index - Summary".data :=
  ⟨rfl, by decide, by decide,
    c7_amended cfgBase ["projects".data] ("index-summary.md".data) rfl
      (by decide) (by decide)⟩

end AddHeadings

namespace AddHeadings

lemma canvas_not_md {fname : Str}
    (h : endsWithS (toLowerS fname) (".md".data) = true) :
    endsWithS fname (".canvas".data) = false := by
  cases hc : endsWithS fname (".canvas".data)
  · rfl
  · exfalso
    rw [endsWithS] at h hc
    rw [show ((".canvas".data).reverse) = 's' :: "avnac.".data from rfl] at hc
    rw [show ((".md".data).reverse) = 'd' :: "m.".data from rfl] at h
    cases hrev : fname.reverse with
    | nil =>
      rw [hrev] at hc
      exact absurd hc (by decide)
    | cons a r =>
      rw [hrev] at hc
      have ha : a = 's' := (startsWithS_cons_elim hc).1
      have hlow : (toLowerS fname).reverse = Char.toLower a :: r.map Char.toLower := by
        rw [toLowerS, ← List.map_reverse, hrev, List.map_cons]
      rw [hlow] at h
      have had : Char.toLower a = 'd' := (startsWithS_cons_elim h).1
      rw [ha] at had
      exact absurd had (by decide)

/-- C10: the walker marks a file `skipped_special` exactly when its name
case-insensitively ends with `.md` and case-sensitively ends with
`.excalidraw.md`; no name can end with both `.md` (case-insensitively) and
`.canvas`, so the `.canvas` test never fires; and an uppercase
`DIAGRAM.EXCALIDRAW.MD` is a processing candidate. -/
theorem c10_special_classification (fname : Str) :
    (classify_file fname = WalkClass.special ↔
      (endsWithS (toLowerS fname) (".md".data) = true ∧
        endsWithS fname (".excalidraw.md".data) = true)) ∧
    (endsWithS (toLowerS fname) (".md".data) = true →
      endsWithS fname (".canvas".data) = false) ∧
    classify_file ("DIAGRAM.EXCALIDRAW.MD".data) = WalkClass.candidate := by
  refine ⟨?_, fun h => canvas_not_md h, by decide⟩
  rw [classify_file]
  by_cases hmd : endsWithS (toLowerS fname) (".md".data) = true
  · rw [if_pos hmd]
    by_cases hex : endsWithS fname (".excalidraw.md".data) = true
    · rw [if_pos (by simp [hex])]
      simp [hmd, hex]
    · have hcv : endsWithS fname (".canvas".data) = false := canvas_not_md hmd
      have hex2 : endsWithS fname (".excalidraw.md".data) = false := by
        cases hx : endsWithS fname (".excalidraw.md".data)
        · rfl
        · exact absurd hx hex
      rw [if_neg (by simp [hcv, hex2])]
      constructor
      · intro hcon
        exact absurd hcon (by simp)
      · intro hcon
        exact absurd hcon.2 hex
  · rw [if_neg hmd]
    constructor
    · intro hcon
      exact absurd hcon (by simp)
    · intro hcon
      exact absurd hcon.1 hmd

/-- Witness for C10 at a lowercase excalidraw name. -/
theorem c10_special_classification_witness :
    (endsWithS (toLowerS ("a.excalidraw.md".data)) (".md".data) = true ∧
      endsWithS ("a.excalidraw.md".data) (".excalidraw.md".data) = true) ∧
    classify_file ("a.excalidraw.md".data) = WalkClass.special :=
  ⟨⟨by decide, by decide⟩,
    (c10_special_classification ("a.excalidraw.md".data)).1.mpr
      ⟨by decide, by decide⟩⟩

end AddHeadings
